import Mathlib

/-!
Verification of the line-addressed mutation engine and command dispatcher of
the jdev-cli repository (src/functions.rs, src/print.rs, src/socket.rs).

Rust strings are modelled as lists of characters; machine integers (`usize`)
as `Nat` with the debug-profile overflow check made explicit; fallible code
returns an `Outcome` that distinguishes `Ok`, `Err`, and a panic.
-/

/-- A Rust `String`, modelled as its list of characters. -/
abbrev Str := List Char

/-- Splitting a string at every line feed, keeping empty segments: the result
always has one more segment than the string has line feeds. This is the
segment structure underlying Rust's `str::lines()`. -/
def splitNl : Str → List Str
  | [] => [[]]
  | c :: rest =>
    if c = '\n' then [] :: splitNl rest
    else
      match splitNl rest with
      | [] => [[c]]
      | s :: ss => (c :: s) :: ss

/-- Strip one trailing carriage return from a segment, as `str::lines()` does
to every segment that was terminated by a line feed (CRLF handling). -/
def stripCR (l : Str) : Str :=
  if l.getLast? = some '\r' then l.dropLast else l

/-- Rust `str::lines()`: split on line feeds, drop a final empty segment (a
trailing line feed does not create an extra line), and strip a carriage
return immediately preceding a line feed; the final segment, which has no
line-feed terminator, keeps a trailing carriage return. -/
def rustLines (s : Str) : List Str :=
  let parts := splitNl s
  parts.dropLast.map stripCR ++
    (match parts.getLast? with
     | some [] => []
     | some last => [last]
     | none => [])

/-- `Vec::join("\n")`: interleave a line feed between consecutive lines. -/
def joinNl : List Str → Str
  | [] => []
  | [l] => l
  | l :: ls => l ++ '\n' :: joinNl ls

/-- The observable outcome of running a fallible Rust function: `Ok`, an
`Err` carried in the `anyhow::Result`, or a panic that aborts the process. -/
inductive Outcome (α : Type) where
  | ok (val : α)
  | error (msg : String)
  | panic (msg : String)
deriving DecidableEq, Repr

/-- `ModificationMode` (functions.rs lines 23-28). -/
inductive ModificationMode where
  | insert
  | replace
deriving DecidableEq, Repr

/-- `ModifyFileArgs` (functions.rs lines 12-21): 1-based `start_line`;
`end_line` is 1-based and only required in replace mode. -/
structure ModifyFileArgs where
  path : String
  start_line : Nat
  end_line : Option Nat
  content : Str
  mode : ModificationMode
deriving DecidableEq, Repr

/-- `ModifyFileResult` (functions.rs lines 30-34). -/
structure ModifyFileResult where
  old_contents : Str
  new_contents : Str
deriving DecidableEq, Repr

/-- `usize` subtraction of one with the debug-profile overflow check that Rust
applies to `start_line - 1` (the profile the repository's tests run under;
in release the wrapped value makes the subsequent splice panic instead). -/
def usizeSub1 : Nat → Outcome Nat
  | 0 => .panic "attempt to subtract with overflow"
  | n + 1 => .ok n

/-- `Vec::splice(a..b, new)` restricted to its effect on the vector: it
panics when the range is inverted or its end passes the vector's length;
otherwise it removes the elements of `[a, b)` and inserts `new` at `a`. -/
def spliceRange (v : List Str) (a b : Nat) (new : List Str) : Outcome (List Str) :=
  if b < a then .panic "slice index starts at the end but ends before it"
  else if v.length < b then .panic "range end index out of range"
  else .ok (v.take a ++ new ++ v.drop b)

/-- The line-splicing step of `Functions::modify_file` (functions.rs lines
179-192): split the old contents and the request's content into lines, then
splice according to the mode; replace mode first demands `end_line`. -/
def splicedLines (old_contents : Str) (args : ModifyFileArgs) : Outcome (List Str) :=
  let file_lines := rustLines old_contents
  let new_lines := rustLines args.content
  match args.mode with
  | .insert =>
    match usizeSub1 args.start_line with
    | .ok i => spliceRange file_lines i i new_lines
    | .error e => .error e
    | .panic p => .panic p
  | .replace =>
    match args.end_line with
    | none => .error "end_line must be provided when using replace mode"
    | some end_line =>
      match usizeSub1 args.start_line with
      | .ok i => spliceRange file_lines i end_line new_lines
      | .error e => .error e
      | .panic p => .panic p

/-- The repository's file tree, as an association list from a path (relative
to the repository root) to that file's contents. -/
structure FS where
  files : List (String × Str)
deriving DecidableEq, Repr

/-- Contents stored at a path, `none` when no such file exists. -/
def FS.readPath (fs : FS) (p : String) : Option Str :=
  (fs.files.find? (fun e => e.1 = p)).map (fun e => e.2)

/-- Overwrite (or create) the file at a path. -/
def FS.writePath (fs : FS) (p : String) (c : Str) : FS :=
  ⟨(p, c) :: fs.files.filter (fun e => e.1 ≠ p)⟩

/-- Remove the file at a path. -/
def FS.removePath (fs : FS) (p : String) : FS :=
  ⟨fs.files.filter (fun e => e.1 ≠ p)⟩

/-- `Functions::modify_file` (functions.rs lines 168-201): fail when the file
does not exist, read it, splice the requested edit into its line sequence,
join the result with line-feed separators plus a single trailing line feed,
and overwrite the file with that string, returning old and new contents. -/
def Functions.modify_file (fs : FS) (args : ModifyFileArgs) :
    Outcome ModifyFileResult × FS :=
  match fs.readPath args.path with
  | none => (.error "File does not exist", fs)
  | some old_contents =>
    match splicedLines old_contents args with
    | .ok file_lines =>
      let new_contents := joinNl file_lines ++ ['\n']
      (.ok ⟨old_contents, new_contents⟩, fs.writePath args.path new_contents)
    | .error e => (.error e, fs)
    | .panic p => (.panic p, fs)

/-- `Functions::read_file` (functions.rs lines 121-126): return the file's
contents, failing when it does not exist. -/
def Functions.read_file (fs : FS) (path : String) : Outcome Str :=
  match fs.readPath path with
  | some c => .ok c
  | none => .error "No such file or directory"

/-- Rust `str::trim_end()` on ASCII text: drop trailing whitespace
characters. -/
def rustTrimEnd (s : Str) : Str :=
  (s.reverse.dropWhile Char.isWhitespace).reverse

/-- `true` when the string contains a carriage return immediately followed
by a line feed. -/
def hasCRLF : Str → Bool
  | [] => false
  | [_] => false
  | c :: d :: rest => (c = '\r' && d = '\n') || hasCRLF (d :: rest)

/-- The tag of one change of a line diff, as in the external diff library. -/
inductive ChangeTag where
  | equal
  | delete
  | insert
deriving DecidableEq, Repr

/-- One change of a line diff: its tag, the line's 0-based index in the old
sequence (absent for insertions), its 0-based index in the new sequence
(absent for deletions), and the line itself. -/
structure DiffChange where
  tag : ChangeTag
  old_index : Option Nat
  new_index : Option Nat
  value : Str
deriving DecidableEq, Repr

/-- Modelled from the spec: the length of a longest common subsequence, the
measure behind the "longest-common-subsequence-style algorithm" of the
external diff library (which is not part of this repository's sources).
Structural recursion on an explicit fuel argument; every step consumes one
list element and one unit of fuel, so fuel equal to the summed lengths never
runs out. -/
def lcsLenF : Nat → List Str → List Str → Nat
  | 0, _, _ => 0
  | _ + 1, [], _ => 0
  | _ + 1, _ :: _, [] => 0
  | f + 1, a :: as, b :: bs =>
    if a = b then lcsLenF f as bs + 1
    else max (lcsLenF f (a :: as) bs) (lcsLenF f as (b :: bs))

/-- The longest-common-subsequence length of two line sequences. -/
def lcsLen (xs ys : List Str) : Nat := lcsLenF (xs.length + ys.length) xs ys

/-- Modelled from the spec: a longest-common-subsequence line diff emitting
equal, delete, and insert changes — deletions carrying 0-based old-sequence
indices and insertions 0-based new-sequence indices — as the external diff
library's `iter_all_changes` does. `i` and `j` are the positions of the
heads of `old` and `new` within the full sequences. -/
def diffChangesF : Nat → List Str → List Str → Nat → Nat → List DiffChange
  | 0, _, _, _, _ => []
  | _ + 1, [], [], _, _ => []
  | f + 1, a :: as, [], i, j =>
    ⟨.delete, some i, none, a⟩ :: diffChangesF f as [] (i + 1) j
  | f + 1, [], b :: bs, i, j =>
    ⟨.insert, none, some j, b⟩ :: diffChangesF f [] bs i (j + 1)
  | f + 1, a :: as, b :: bs, i, j =>
    if a = b then ⟨.equal, some i, some j, a⟩ :: diffChangesF f as bs (i + 1) (j + 1)
    else if lcsLen as (b :: bs) < lcsLen (a :: as) bs then
      ⟨.insert, none, some j, b⟩ :: diffChangesF f (a :: as) bs i (j + 1)
    else ⟨.delete, some i, none, a⟩ :: diffChangesF f as (b :: bs) (i + 1) j

/-- The diff of two line sequences, with `i` and `j` the positions of their
heads within the full sequences. -/
def diffChanges (old new : List Str) (i j : Nat) : List DiffChange :=
  diffChangesF (old.length + new.length) old new i j

/-- One line of the change report printed for a `ModifyFile` result
(`print_line_content`, print.rs lines 103-118): the 1-based line number, the
printed content (`trim_end` applied), and whether it is a deletion. -/
structure PrintedLine where
  line_number : Nat
  content : Str
  is_deletion : Bool
deriving DecidableEq, Repr

/-- The change report `print_function_execution` prints for a `ModifyFile`
result (print.rs lines 79-91): diff the old and new contents by lines, keep
only the changes whose tag is not `Equal`, and number each deletion by
`old_index + 1` and every other kept change by `new_index + 1` (`unwrap` is
modelled by `getD`; the respective index is always present). -/
def modifyFileReport (old_contents new_contents : Str) : List PrintedLine :=
  ((diffChanges (rustLines old_contents) (rustLines new_contents) 0 0).filter
      (fun c => decide (c.tag ≠ ChangeTag.equal))).map
    (fun c =>
      let is_del : Bool := decide (c.tag = ChangeTag.delete)
      ⟨(if is_del then c.old_index.getD 0 else c.new_index.getD 0) + 1,
        rustTrimEnd c.value, is_del⟩)

/-- `ReadFileArgs` (functions.rs lines 47-50). -/
structure ReadFileArgs where
  path : String
deriving DecidableEq, Repr

/-- `DeleteFileArgs` (functions.rs lines 42-45). -/
structure DeleteFileArgs where
  path : String
deriving DecidableEq, Repr

/-- Modelled from the spec: the `write_file {path, content}` argument shape
(socket.rs references `WriteFileArgs`, which is absent from the sources). -/
structure WriteFileArgs where
  path : String
  content : Str
deriving DecidableEq, Repr

/-- Modelled from the spec: the `move_file {source_path, destination_path}`
argument shape (socket.rs references `MoveFileArgs`, which is absent from
the sources). -/
structure MoveFileArgs where
  source_path : String
  destination_path : String
deriving DecidableEq, Repr

/-- `FunctionCall` (socket.rs lines 12-22). -/
inductive FunctionCall where
  | getAllFiles
  | writeFile (args : WriteFileArgs)
  | readFile (args : ReadFileArgs)
  | deleteFile (args : DeleteFileArgs)
  | modifyFile (args : ModifyFileArgs)
  | moveFile (args : MoveFileArgs)
  | printMessage (message : String)
deriving DecidableEq, Repr

/-- `FunctionReturnData` (socket.rs lines 24-32). -/
inductive FunctionReturnData where
  | null
  | getAllFiles (files : List String)
  | writeFile (prior : Option Str)
  | modifyFile (res : ModifyFileResult)
  | readFile (contents : Option Str)
deriving DecidableEq, Repr

/-- `FunctionResult` (socket.rs lines 34-39). -/
inductive FunctionResult where
  | success (data : FunctionReturnData)
  | error (msg : String)
deriving DecidableEq, Repr

/-- `Functions::get_all_files` (functions.rs lines 70-91), with the paths the
external version-control collaborator reports (git2 statuses) supplied as
`reported`: keep those that still exist on disk. -/
def Functions.get_all_files (fs : FS) (reported : List String) :
    Outcome (List String) :=
  .ok (reported.filter (fun p => (fs.readPath p).isSome))

/-- `Functions::delete_file` (functions.rs lines 139-147): fail when the
file does not exist, otherwise remove it. -/
def Functions.delete_file (fs : FS) (path : String) : Outcome Unit × FS :=
  match fs.readPath path with
  | none => (.error "File does not exist", fs)
  | some _ => (.ok (), fs.removePath path)

/-- Modelled from the spec: `write_file` (called by socket.rs but absent from
the sources) creates parent directories, unconditionally overwrites, and
returns the prior content, or `none` when the file was absent. -/
def Functions.write_file (fs : FS) (args : WriteFileArgs) :
    Outcome (Option Str) × FS :=
  (.ok (fs.readPath args.path), fs.writePath args.path args.content)

/-- Modelled from the spec: the optional-returning `read_file` socket.rs
expects (`ReadFile(Option<String>)`): the contents, or `none` when the file
is absent, never an error. -/
def Functions.read_file_opt (fs : FS) (args : ReadFileArgs) :
    Outcome (Option Str) :=
  .ok (fs.readPath args.path)

/-- Modelled from the spec: `move_file` (called by socket.rs but absent from
the sources) fails when the source is absent or the destination present, and
otherwise renames in one atomic step. -/
def Functions.move_file (fs : FS) (args : MoveFileArgs) : Outcome Unit × FS :=
  match fs.readPath args.source_path with
  | none => (.error "File does not exist", fs)
  | some c =>
    match fs.readPath args.destination_path with
    | some _ => (.error "File already exists", fs)
    | none =>
      (.ok (), (fs.removePath args.source_path).writePath args.destination_path c)

/-- What one dispatch of a decoded operation does to the receive loop: send
exactly one reply and continue with the updated tree, end the loop (the
`PrintMessage` arm returns from `connect`), or abort the process (a panic
propagates out of the loop). -/
inductive StepOut where
  | reply (result : FunctionResult) (fs : FS)
  | terminated
  | panicked (msg : String)
deriving DecidableEq, Repr

/-- The dispatch of one decoded `FunctionCall` (socket.rs lines 73-86): each
operation's returned outcome is wrapped by the `call!` macro into `Success`
of the variant's payload shape or `Error` of the message; `PrintMessage`
prints the message and returns from `connect` without replying. -/
def dispatchStep (reported : List String) (fs : FS) (call : FunctionCall) :
    StepOut :=
  match call with
  | .getAllFiles =>
    match Functions.get_all_files fs reported with
    | .ok files => .reply (.success (.getAllFiles files)) fs
    | .error e => .reply (.error e) fs
    | .panic p => .panicked p
  | .readFile args =>
    match Functions.read_file_opt fs args with
    | .ok contents => .reply (.success (.readFile contents)) fs
    | .error e => .reply (.error e) fs
    | .panic p => .panicked p
  | .writeFile args =>
    match Functions.write_file fs args with
    | (.ok prior, fs') => .reply (.success (.writeFile prior)) fs'
    | (.error e, fs') => .reply (.error e) fs'
    | (.panic p, _) => .panicked p
  | .deleteFile args =>
    match Functions.delete_file fs args.path with
    | (.ok _, fs') => .reply (.success .null) fs'
    | (.error e, fs') => .reply (.error e) fs'
    | (.panic p, _) => .panicked p
  | .modifyFile args =>
    match Functions.modify_file fs args with
    | (.ok r, fs') => .reply (.success (.modifyFile r)) fs'
    | (.error e, fs') => .reply (.error e) fs'
    | (.panic p, _) => .panicked p
  | .moveFile args =>
    match Functions.move_file fs args with
    | (.ok _, fs') => .reply (.success .null) fs'
    | (.error e, fs') => .reply (.error e) fs'
    | (.panic p, _) => .panicked p
  | .printMessage _ => .terminated

/-- How the receive loop of `connect` (socket.rs lines 62-99) ends. -/
inductive LoopEnd where
  | finished
  | terminatedByPrint
  | panicked (msg : String)
deriving DecidableEq, Repr

/-- The receive loop of `connect` (socket.rs lines 62-99) over a finite
inbound script: `none` stands for a text message that fails to decode into a
`FunctionCall` (logged and skipped, no reply); a decoded call is dispatched
and its reply sent. The replies sent are collected in order. The loop ends
when the script is exhausted, when a `PrintMessage` arm returns, or when a
dispatch panics. -/
def runLoop (reported : List String) :
    FS → List (Option FunctionCall) → List FunctionResult × LoopEnd
  | _, [] => ([], .finished)
  | fs, none :: rest => runLoop reported fs rest
  | fs, some call :: rest =>
    match dispatchStep reported fs call with
    | .terminated => ([], .terminatedByPrint)
    | .panicked m => ([], .panicked m)
    | .reply r fs' =>
      let (rs, e) := runLoop reported fs' rest
      (r :: rs, e)

/-- C1: for every existing file and Replace request with
`1 ≤ start_line ≤ end_line ≤ len`, `modify_file` succeeds and the resulting
line sequence is the original with the 0-based half-open range
`[start_line - 1, end_line)` removed and the content's lines spliced in at
`start_line - 1`; in particular the spec's concrete scenario holds. -/
theorem modify_replace_valid_range (fs : FS) (p : String) (old content : Str)
    (s e : Nat) (hread : fs.readPath p = some old)
    (h1 : 1 ≤ s) (h2 : s ≤ e) (h3 : e ≤ (rustLines old).length) :
    (Functions.modify_file fs ⟨p, s, some e, content, .replace⟩).1 =
      .ok ⟨old,
        joinNl ((rustLines old).take (s - 1) ++ rustLines content ++
          (rustLines old).drop e) ++ ['\n']⟩ ∧
    (Functions.modify_file ⟨[("t.txt", ("Line 1\nLine 2\nLine 3").toList)]⟩
      ⟨"t.txt", 2, some 2, ("Modified Line").toList, .replace⟩).1 =
      .ok ⟨("Line 1\nLine 2\nLine 3").toList,
        ("Line 1\nModified Line\nLine 3\n").toList⟩ := by
  constructor
  · obtain ⟨n, rfl⟩ : ∃ n, s = n + 1 := ⟨s - 1, by omega⟩
    simp only [Functions.modify_file, hread, splicedLines, usizeSub1, spliceRange]
    rw [if_neg (by omega), if_neg (by omega)]
    simp
  · decide

/-- Witness for C1 at the spec's concrete scenario. -/
theorem modify_replace_valid_range_witness :
    (Functions.modify_file ⟨[("t.txt", ("Line 1\nLine 2\nLine 3").toList)]⟩
      ⟨"t.txt", 2, some 2, ("Modified Line").toList, .replace⟩).1 =
      .ok ⟨("Line 1\nLine 2\nLine 3").toList,
        joinNl ((rustLines (("Line 1\nLine 2\nLine 3").toList)).take 1 ++
          rustLines (("Modified Line").toList) ++
          (rustLines (("Line 1\nLine 2\nLine 3").toList)).drop 2) ++ ['\n']⟩ :=
  (modify_replace_valid_range ⟨[("t.txt", ("Line 1\nLine 2\nLine 3").toList)]⟩
    "t.txt" (("Line 1\nLine 2\nLine 3").toList) (("Modified Line").toList)
    2 2 (by decide) (by omega) (by omega) (by decide)).1

theorem splicedLines_replace_ok (old content : Str) (p : String) (s e : Nat)
    (h1 : 1 ≤ s) (h2 : s - 1 ≤ e) (h3 : e ≤ (rustLines old).length) :
    splicedLines old ⟨p, s, some e, content, .replace⟩ =
      .ok ((rustLines old).take (s - 1) ++ rustLines content ++
        (rustLines old).drop e) := by
  obtain ⟨n, rfl⟩ : ∃ n, s = n + 1 := ⟨s - 1, by omega⟩
  simp only [splicedLines, usizeSub1, spliceRange]
  rw [if_neg (by omega), if_neg (by omega)]
  simp

theorem splicedLines_insert_ok (old content : Str) (p : String) (s : Nat)
    (h1 : 1 ≤ s) (h2 : s ≤ (rustLines old).length + 1) :
    splicedLines old ⟨p, s, none, content, .insert⟩ =
      .ok ((rustLines old).take (s - 1) ++ rustLines content ++
        (rustLines old).drop (s - 1)) := by
  obtain ⟨n, rfl⟩ : ∃ n, s = n + 1 := ⟨s - 1, by omega⟩
  simp only [splicedLines, usizeSub1, spliceRange]
  rw [if_neg (by omega), if_neg (by omega)]
  simp

theorem splicedLines_replace_end_out (old content : Str) (p : String) (s e : Nat)
    (h1 : 1 ≤ s) (h2 : s - 1 ≤ e) (h3 : (rustLines old).length < e) :
    splicedLines old ⟨p, s, some e, content, .replace⟩ =
      .panic "range end index out of range" := by
  obtain ⟨n, rfl⟩ : ∃ n, s = n + 1 := ⟨s - 1, by omega⟩
  simp only [splicedLines, usizeSub1, spliceRange]
  rw [if_neg (by omega), if_pos (by omega)]

theorem modify_file_of_spliced_ok (fs : FS) (args : ModifyFileArgs)
    (old : Str) (lines : List Str)
    (hread : fs.readPath args.path = some old)
    (hsp : splicedLines old args = .ok lines) :
    Functions.modify_file fs args =
      (.ok ⟨old, joinNl lines ++ ['\n']⟩,
        fs.writePath args.path (joinNl lines ++ ['\n'])) := by
  simp only [Functions.modify_file, hread, hsp]

theorem modify_file_of_spliced_panic (fs : FS) (args : ModifyFileArgs)
    (old : Str) (msg : String)
    (hread : fs.readPath args.path = some old)
    (hsp : splicedLines old args = .panic msg) :
    Functions.modify_file fs args = (.panic msg, fs) := by
  simp only [Functions.modify_file, hread, hsp]

/-- C5: Replace with an empty content string over a valid range is a pure
deletion: the empty string splits into no lines at all, so the lines of the
1-based inclusive range are removed and nothing is inserted in their place. -/
theorem modify_replace_empty_deletes (fs : FS) (p : String) (old : Str)
    (s e : Nat) (hread : fs.readPath p = some old)
    (h1 : 1 ≤ s) (h2 : s ≤ e) (h3 : e ≤ (rustLines old).length) :
    rustLines ([] : Str) = [] ∧
    (Functions.modify_file fs ⟨p, s, some e, [], .replace⟩).1 =
      .ok ⟨old, joinNl ((rustLines old).take (s - 1) ++ (rustLines old).drop e)
        ++ ['\n']⟩ := by
  refine ⟨rfl, ?_⟩
  rw [modify_file_of_spliced_ok fs _ old _ hread
    (splicedLines_replace_ok old [] p s e h1 (by omega) h3)]
  simp [show rustLines ([] : Str) = [] from rfl]

/-- Witness for C5: deleting line 2 of a three-line file. -/
theorem modify_replace_empty_deletes_witness :
    rustLines ([] : Str) = [] ∧
    (Functions.modify_file ⟨[("t5.txt", ("a\nb\nc\n").toList)]⟩
      ⟨"t5.txt", 2, some 2, [], .replace⟩).1 =
      .ok ⟨("a\nb\nc\n").toList,
        joinNl ((rustLines (("a\nb\nc\n").toList)).take 1 ++
          (rustLines (("a\nb\nc\n").toList)).drop 2) ++ ['\n']⟩ :=
  modify_replace_empty_deletes ⟨[("t5.txt", ("a\nb\nc\n").toList)]⟩ "t5.txt"
    (("a\nb\nc\n").toList) 2 2 (by decide) (by omega) (by omega) (by decide)

/-- C2 counterexample: on a one-line file, Replace with start_line = 2 and
end_line = 2 — start_line beyond the current length — panics instead of
succeeding as an append: the endpoints are not clamped. -/
theorem modify_replace_beyond_len_cex :
    (Functions.modify_file ⟨[("t2.txt", ("a\n").toList)]⟩
      ⟨"t2.txt", 2, some 2, ("x").toList, .replace⟩).1 =
      .panic "range end index out of range" := by decide

/-- C2 (amended): the endpoints are not clamped: for an existing file, a
Replace whose end_line exceeds the line count — in particular one whose
start_line is beyond the current length, with end_line ≥ start_line — panics
and aborts rather than succeeding; the empty-range pure append arises only in
the degenerate case start_line = len + 1 with end_line = len. -/
theorem modify_replace_no_clamp (fs : FS) (p : String) (old content : Str)
    (s e : Nat) (hread : fs.readPath p = some old) (h1 : 1 ≤ s) :
    ((rustLines old).length < s → s ≤ e →
      (Functions.modify_file fs ⟨p, s, some e, content, .replace⟩).1 =
        .panic "range end index out of range") ∧
    (s = (rustLines old).length + 1 → e = (rustLines old).length →
      (Functions.modify_file fs ⟨p, s, some e, content, .replace⟩).1 =
        .ok ⟨old, joinNl (rustLines old ++ rustLines content) ++ ['\n']⟩) := by
  constructor
  · intro hlen hse
    rw [modify_file_of_spliced_panic fs _ old _ hread
      (splicedLines_replace_end_out old content p s e h1 (by omega) (by omega))]
  · intro hs he
    rw [modify_file_of_spliced_ok fs _ old _ hread
      (splicedLines_replace_ok old content p s e h1 (by omega) (by omega))]
    have h4 : s - 1 = (rustLines old).length := by omega
    simp [h4, he, List.take_length, List.drop_length]

/-- Witness for C2 (amended): the panic at end_line = 2 > len = 1, and the
pure append with start_line = len + 1 = 2, end_line = len = 1. -/
theorem modify_replace_no_clamp_witness :
    (Functions.modify_file ⟨[("t2w.txt", ("a\n").toList)]⟩
      ⟨"t2w.txt", 2, some 2, ("x").toList, .replace⟩).1 =
      .panic "range end index out of range" ∧
    (Functions.modify_file ⟨[("t2w.txt", ("a\n").toList)]⟩
      ⟨"t2w.txt", 2, some 1, ("x").toList, .replace⟩).1 =
      .ok ⟨("a\n").toList,
        joinNl (rustLines (("a\n").toList) ++ rustLines (("x").toList)) ++ ['\n']⟩ :=
  ⟨(modify_replace_no_clamp ⟨[("t2w.txt", ("a\n").toList)]⟩ "t2w.txt"
      (("a\n").toList) (("x").toList) 2 2 (by decide) (by omega)).1
      (by decide) (by omega),
   (modify_replace_no_clamp ⟨[("t2w.txt", ("a\n").toList)]⟩ "t2w.txt"
      (("a\n").toList) (("x").toList) 2 1 (by decide) (by omega)).2
      (by decide) (by decide)⟩

/-- C4 counterexample: Insert targeting start_line = 3 on a one-line file
panics, so no resulting line sequence exists at all — Insert is not safe
"regardless of where it targets". -/
theorem modify_insert_out_of_range_cex :
    (Functions.modify_file ⟨[("t4.txt", ("a\n").toList)]⟩
      ⟨"t4.txt", 3, none, ("x").toList, .insert⟩).1 =
      .panic "range end index out of range" := by decide

/-- C4 (amended): for Insert with 1 ≤ start_line ≤ len + 1 the content's
lines are spliced in at start_line - 1 and nothing is removed — every
original line stays, in its original relative order — and start_line =
len + 1 is a pure append; an Insert targeting further than len + 1 instead
panics (the target is not clamped). -/
theorem modify_insert_keeps_lines (fs : FS) (p : String) (old content : Str)
    (s : Nat) (hread : fs.readPath p = some old)
    (h1 : 1 ≤ s) (h2 : s ≤ (rustLines old).length + 1) :
    (Functions.modify_file fs ⟨p, s, none, content, .insert⟩).1 =
      .ok ⟨old, joinNl ((rustLines old).take (s - 1) ++ rustLines content ++
        (rustLines old).drop (s - 1)) ++ ['\n']⟩ ∧
    (rustLines old).Sublist ((rustLines old).take (s - 1) ++ rustLines content ++
      (rustLines old).drop (s - 1)) ∧
    (s = (rustLines old).length + 1 →
      (rustLines old).take (s - 1) ++ rustLines content ++
        (rustLines old).drop (s - 1) = rustLines old ++ rustLines content) := by
  refine ⟨?_, ?_, ?_⟩
  · rw [modify_file_of_spliced_ok fs _ old _ hread
      (splicedLines_insert_ok old content p s h1 h2)]
  · rw [List.append_assoc]
    conv_lhs => rw [← List.take_append_drop (s - 1) (rustLines old)]
    exact List.Sublist.append_left (List.sublist_append_right _ _) _
  · intro hs
    have h4 : s - 1 = (rustLines old).length := by omega
    simp [h4, List.take_length, List.drop_length]

/-- Witness for C4 (amended): appending to a two-line file by inserting at
start_line = 3 = len + 1. -/
theorem modify_insert_keeps_lines_witness :
    (Functions.modify_file ⟨[("t4w.txt", ("a\nb\n").toList)]⟩
      ⟨"t4w.txt", 3, none, ("x").toList, .insert⟩).1 =
      .ok ⟨("a\nb\n").toList,
        joinNl ((rustLines (("a\nb\n").toList)).take 2 ++
          rustLines (("x").toList) ++
          (rustLines (("a\nb\n").toList)).drop 2) ++ ['\n']⟩ ∧
    (rustLines (("a\nb\n").toList)).Sublist
      ((rustLines (("a\nb\n").toList)).take 2 ++ rustLines (("x").toList) ++
        (rustLines (("a\nb\n").toList)).drop 2) ∧
    (3 = (rustLines (("a\nb\n").toList)).length + 1 →
      (rustLines (("a\nb\n").toList)).take 2 ++ rustLines (("x").toList) ++
        (rustLines (("a\nb\n").toList)).drop 2 =
        rustLines (("a\nb\n").toList) ++ rustLines (("x").toList)) :=
  modify_insert_keeps_lines ⟨[("t4w.txt", ("a\nb\n").toList)]⟩ "t4w.txt"
    (("a\nb\n").toList) (("x").toList) 3 (by decide) (by omega) (by decide)

/-- C9: start_line = 0 makes the 1-based-to-0-based conversion
`start_line - 1` underflow `usize` and the operation panics (the debug
overflow check) instead of returning an Error, both in insert mode and in
replace mode with end_line supplied; with start_line ≥ 1 the underflow panic
can never arise. -/
theorem modify_start_zero_panics (fs : FS) (p : String) (old content : Str)
    (e : Nat) (hread : fs.readPath p = some old) :
    (Functions.modify_file fs ⟨p, 0, none, content, .insert⟩).1 =
      .panic "attempt to subtract with overflow" ∧
    (Functions.modify_file fs ⟨p, 0, some e, content, .replace⟩).1 =
      .panic "attempt to subtract with overflow" ∧
    (∀ s eo mode, 1 ≤ s →
      splicedLines old ⟨p, s, eo, content, mode⟩ ≠
        .panic "attempt to subtract with overflow") := by
  refine ⟨?_, ?_, ?_⟩
  · rw [modify_file_of_spliced_panic fs ⟨p, 0, none, content, .insert⟩ old
      "attempt to subtract with overflow" hread (by rfl)]
  · rw [modify_file_of_spliced_panic fs ⟨p, 0, some e, content, .replace⟩ old
      "attempt to subtract with overflow" hread (by rfl)]
  · intro s eo mode hs
    obtain ⟨n, rfl⟩ : ∃ n, s = n + 1 := ⟨s - 1, by omega⟩
    cases mode
    case insert =>
      simp only [splicedLines, usizeSub1, spliceRange]
      split
      · decide
      · split
        · decide
        · simp
    case replace =>
      cases eo
      case none => simp [splicedLines]
      case some e' =>
        simp only [splicedLines, usizeSub1, spliceRange]
        split
        · decide
        · split
          · decide
          · simp

/-- Witness for C9: both panics on a concrete one-line file, and the
unreachability of the underflow at start_line = 1. -/
theorem modify_start_zero_panics_witness :
    (Functions.modify_file ⟨[("t9.txt", ("a\n").toList)]⟩
      ⟨"t9.txt", 0, none, ("x").toList, .insert⟩).1 =
      .panic "attempt to subtract with overflow" ∧
    (Functions.modify_file ⟨[("t9.txt", ("a\n").toList)]⟩
      ⟨"t9.txt", 0, some 1, ("x").toList, .replace⟩).1 =
      .panic "attempt to subtract with overflow" ∧
    splicedLines (("a\n").toList) ⟨"t9.txt", 1, none, ("x").toList, .insert⟩ ≠
      .panic "attempt to subtract with overflow" :=
  ⟨(modify_start_zero_panics ⟨[("t9.txt", ("a\n").toList)]⟩ "t9.txt"
      (("a\n").toList) (("x").toList) 1 (by decide)).1,
   (modify_start_zero_panics ⟨[("t9.txt", ("a\n").toList)]⟩ "t9.txt"
      (("a\n").toList) (("x").toList) 1 (by decide)).2.1,
   (modify_start_zero_panics ⟨[("t9.txt", ("a\n").toList)]⟩ "t9.txt"
      (("a\n").toList) (("x").toList) 1 (by decide)).2.2 1 none .insert
      (by omega)⟩

theorem splitNl_ne_nil (s : Str) : splitNl s ≠ [] := by
  cases s with
  | nil => simp [splitNl]
  | cons c rest =>
    simp only [splitNl]
    split
    · simp
    · split <;> simp

theorem FS.readPath_writePath (fs : FS) (p : String) (c : Str) :
    (fs.writePath p c).readPath p = some c := by
  simp [FS.readPath, FS.writePath, List.find?]

theorem modify_file_of_spliced_error (fs : FS) (args : ModifyFileArgs)
    (old : Str) (msg : String)
    (hread : fs.readPath args.path = some old)
    (hsp : splicedLines old args = .error msg) :
    Functions.modify_file fs args = (.error msg, fs) := by
  simp only [Functions.modify_file, hread, hsp]

theorem modify_file_of_read_none (fs : FS) (args : ModifyFileArgs)
    (hread : fs.readPath args.path = none) :
    Functions.modify_file fs args = (.error "File does not exist", fs) := by
  simp only [Functions.modify_file, hread]

/-- C6: round-trip — after a successful `modify_file`, `read_file` on the
same path returns exactly the `new_contents` the modification reported. -/
theorem modify_then_read_roundtrip (fs fs' : FS) (args : ModifyFileArgs)
    (r : ModifyFileResult)
    (h : Functions.modify_file fs args = (.ok r, fs')) :
    Functions.read_file fs' args.path = .ok r.new_contents := by
  cases hrd : fs.readPath args.path with
  | none =>
    rw [modify_file_of_read_none fs args hrd] at h
    simp at h
  | some old =>
    cases hsp : splicedLines old args with
    | ok lines =>
      rw [modify_file_of_spliced_ok fs args old lines hrd hsp] at h
      have h1 := congrArg Prod.fst h
      have h2 := congrArg Prod.snd h
      simp only at h1 h2
      obtain rfl : r = ⟨old, joinNl lines ++ ['\n']⟩ := (Outcome.ok.inj h1).symm
      subst h2
      simp [Functions.read_file, FS.readPath_writePath]
    | error e =>
      rw [modify_file_of_spliced_error fs args old e hrd hsp] at h
      simp at h
    | panic p =>
      rw [modify_file_of_spliced_panic fs args old p hrd hsp] at h
      simp at h

/-- Witness for C6 at the spec's concrete scenario. -/
theorem modify_then_read_roundtrip_witness :
    Functions.read_file
      (Functions.modify_file ⟨[("t6.txt", ("Line 1\nLine 2\nLine 3").toList)]⟩
        ⟨"t6.txt", 2, some 2, ("Modified Line").toList, .replace⟩).2
      "t6.txt" =
      .ok (("Line 1\nModified Line\nLine 3\n").toList) :=
  modify_then_read_roundtrip ⟨[("t6.txt", ("Line 1\nLine 2\nLine 3").toList)]⟩
    _ ⟨"t6.txt", 2, some 2, ("Modified Line").toList, .replace⟩
    ⟨("Line 1\nLine 2\nLine 3").toList, ("Line 1\nModified Line\nLine 3\n").toList⟩
    (by decide)

theorem splitNl_cons_head (rest : Str) :
    ∃ h t, splitNl rest = h :: t := by
  cases hP : splitNl rest with
  | nil => exact absurd hP (splitNl_ne_nil rest)
  | cons h t => exact ⟨h, t, rfl⟩

theorem splitNl_cons_of_ne (c : Char) (rest : Str) (hc : ¬(c = '\n'))
    (h : Str) (t : List Str) (hP : splitNl rest = h :: t) :
    splitNl (c :: rest) = (c :: h) :: t := by
  simp only [splitNl, if_neg hc, hP]

theorem joinNl_splitNl (s : Str) : joinNl (splitNl s) = s := by
  induction s with
  | nil => rfl
  | cons c rest ih =>
    obtain ⟨h, t, hP⟩ := splitNl_cons_head rest
    rw [hP] at ih
    by_cases hc : c = '\n'
    · subst hc
      have h1 : splitNl ('\n' :: rest) = [] :: h :: t := by
        simp [splitNl, hP]
      rw [h1]
      show '\n' :: joinNl (h :: t) = '\n' :: rest
      rw [ih]
    · have h1 : splitNl (c :: rest) = (c :: h) :: t := by
        simp only [splitNl, if_neg hc, hP]
      rw [h1]
      cases t with
      | nil => exact congrArg (fun x => c :: x) ih
      | cons y t' =>
        show (c :: h) ++ '\n' :: joinNl (y :: t') = c :: rest
        rw [List.cons_append]
        have ih' : h ++ '\n' :: joinNl (y :: t') = rest := ih
        rw [ih']

theorem splitNl_append_newline (x rest : Str) (hx : '\n' ∉ x) :
    splitNl (x ++ '\n' :: rest) = x :: splitNl rest := by
  induction x with
  | nil => simp [splitNl]
  | cons c x' ih =>
    have hc : ¬(c = '\n') := fun h => hx (by simp [h])
    have hx' : '\n' ∉ x' := fun h => hx (List.mem_cons_of_mem _ h)
    have h1 : splitNl (x' ++ '\n' :: rest) = x' :: splitNl rest := ih hx'
    rw [List.cons_append]
    exact splitNl_cons_of_ne c _ hc _ _ h1

theorem splitNl_joinNl (xs : List Str) (hne : xs ≠ [])
    (h : ∀ x ∈ xs, '\n' ∉ x) :
    splitNl (joinNl xs ++ ['\n']) = xs ++ [[]] := by
  induction xs with
  | nil => exact absurd rfl hne
  | cons x xs ih =>
    cases xs with
    | nil =>
      have hx : '\n' ∉ x := h x (List.mem_cons_self _ _)
      show splitNl (x ++ ['\n']) = [x, []]
      have h1 := splitNl_append_newline x [] hx
      simpa [splitNl] using h1
    | cons y ys =>
      have hx : '\n' ∉ x := h x (List.mem_cons_self _ _)
      have ih' := ih (by simp) (fun z hz => h z (List.mem_cons_of_mem _ hz))
      show splitNl ((x ++ '\n' :: joinNl (y :: ys)) ++ ['\n']) =
        (x :: y :: ys) ++ [[]]
      rw [List.append_assoc]
      rw [show ('\n' :: joinNl (y :: ys)) ++ ['\n'] =
        '\n' :: (joinNl (y :: ys) ++ ['\n']) from rfl]
      rw [splitNl_append_newline x _ hx, ih']
      rfl

theorem map_stripCR_id (L : List Str) (h : ∀ l ∈ L, l.getLast? ≠ some '\r') :
    L.map stripCR = L := by
  induction L with
  | nil => rfl
  | cons l L ih =>
    have h1 : stripCR l = l := by
      unfold stripCR
      rw [if_neg (h l (List.mem_cons_self _ _))]
    simp only [List.map_cons, h1,
      ih (fun z hz => h z (List.mem_cons_of_mem _ hz))]

theorem rustLines_joinNl (xs : List Str) (hne : xs ≠ [])
    (hnl : ∀ x ∈ xs, '\n' ∉ x) (hcr : ∀ x ∈ xs, x.getLast? ≠ some '\r') :
    rustLines (joinNl xs ++ ['\n']) = xs := by
  simp only [rustLines]
  rw [splitNl_joinNl xs hne hnl]
  rw [List.dropLast_concat, List.getLast?_concat]
  simp [map_stripCR_id xs hcr]

theorem not_mem_splitNl (s : Str) : ∀ l ∈ splitNl s, '\n' ∉ l := by
  induction s with
  | nil =>
    intro l hl
    simp [splitNl] at hl
    simp [hl]
  | cons c rest ih =>
    obtain ⟨h, t, hP⟩ := splitNl_cons_head rest
    have hmemP : h ∈ splitNl rest := by rw [hP]; exact List.mem_cons_self _ _
    have hmemt : ∀ z ∈ t, z ∈ splitNl rest := fun z hz => by
      rw [hP]; exact List.mem_cons_of_mem _ hz
    by_cases hc : c = '\n'
    · subst hc
      have h1 : splitNl ('\n' :: rest) = [] :: splitNl rest := by
        simp [splitNl]
      rw [h1]
      intro l hl
      rcases List.mem_cons.mp hl with rfl | hl
      · simp
      · exact ih l hl
    · have h1 : splitNl (c :: rest) = (c :: h) :: t := by
        simp only [splitNl, if_neg hc, hP]
      rw [h1]
      intro l hl
      rcases List.mem_cons.mp hl with rfl | hl
      · intro hmem
        rcases List.mem_cons.mp hmem with h2 | h2
        · exact hc h2.symm
        · exact ih h hmemP h2
      · exact ih l (hmemt l hl)

theorem stripCR_subset (l : Str) : ∀ c ∈ stripCR l, c ∈ l := by
  unfold stripCR
  split
  · exact fun c hc => (List.dropLast_sublist l).subset hc
  · exact fun c hc => hc

theorem not_mem_rustLines (s : Str) (l : Str) (hl : l ∈ rustLines s) :
    '\n' ∉ l := by
  simp only [rustLines] at hl
  rcases List.mem_append.mp hl with hl | hl
  · obtain ⟨l', hl', rfl⟩ := List.mem_map.mp hl
    have h1 : l' ∈ splitNl s := (List.dropLast_sublist _).subset hl'
    intro hmem
    exact not_mem_splitNl s l' h1 (stripCR_subset l' '\n' hmem)
  · rcases hg : (splitNl s).getLast? with _ | last
    · rw [hg] at hl; simp at hl
    · rw [hg] at hl
      cases last with
      | nil => simp at hl
      | cons a as =>
        have h2 : l = a :: as := by simpa using hl
        subst h2
        exact not_mem_splitNl s _ (List.mem_of_getLast?_eq_some hg)

theorem spliceRange_ok_mem (v : List Str) (a b : Nat) (new lines : List Str)
    (h : spliceRange v a b new = .ok lines) :
    ∀ l ∈ lines, l ∈ v ∨ l ∈ new := by
  unfold spliceRange at h
  split at h
  · simp at h
  · split at h
    · simp at h
    · obtain rfl : v.take a ++ new ++ v.drop b = lines := Outcome.ok.inj h
      intro l hl
      rcases List.mem_append.mp hl with hl | hl
      · rcases List.mem_append.mp hl with hl | hl
        · exact Or.inl (List.take_subset _ _ hl)
        · exact Or.inr hl
      · exact Or.inl (List.drop_subset _ _ hl)

theorem not_mem_splicedLines (old : Str) (args : ModifyFileArgs)
    (lines : List Str) (h : splicedLines old args = .ok lines) :
    ∀ l ∈ lines, '\n' ∉ l := by
  intro l hl
  have hv : l ∈ rustLines old ∨ l ∈ rustLines args.content := by
    cases hm : args.mode
    case insert =>
      simp only [splicedLines, hm] at h
      cases hs : usizeSub1 args.start_line <;> simp only [hs] at h
      case ok i => exact spliceRange_ok_mem _ _ _ _ _ h l hl
      case error e => exact absurd h (by simp)
      case panic q => exact absurd h (by simp)
    case replace =>
      simp only [splicedLines, hm] at h
      cases he : args.end_line <;> simp only [he] at h
      case none => exact absurd h (by simp)
      case some e =>
        cases hs : usizeSub1 args.start_line <;> simp only [hs] at h
        case ok i => exact spliceRange_ok_mem _ _ _ _ _ h l hl
        case error q => exact absurd h (by simp)
        case panic q => exact absurd h (by simp)
  rcases hv with hv | hv
  · exact not_mem_rustLines old l hv
  · exact not_mem_rustLines args.content l hv

/-- C3 counterexample: replacing the only line of a file by empty content
yields the empty line sequence and new_contents a lone line feed, but
splitting that back gives one empty line, not the empty sequence — the
trailing line feed does introduce a phantom line here. -/
theorem modify_newcontents_split_cex :
    (Functions.modify_file ⟨[("t3.txt", ("a\n").toList)]⟩
      ⟨"t3.txt", 1, some 1, [], .replace⟩).1 =
      .ok ⟨("a\n").toList, ("\n").toList⟩ ∧
    splicedLines (("a\n").toList) ⟨"t3.txt", 1, some 1, [], .replace⟩ =
      .ok [] ∧
    rustLines (("\n").toList) ≠ [] := by decide

/-- C3 (amended): for every successful `modify_file`, `new_contents` is the
resulting line sequence joined with line-feed separators plus exactly one
trailing line feed, and splitting `new_contents` back yields exactly that
sequence whenever the sequence is nonempty and none of its lines ends in a
carriage return (when the sequence is empty, `new_contents` is a lone line
feed, which splits back into one phantom empty line). -/
theorem modify_newcontents_split (fs : FS) (args : ModifyFileArgs)
    (old : Str) (lines : List Str)
    (hread : fs.readPath args.path = some old)
    (hsp : splicedLines old args = .ok lines) :
    (Functions.modify_file fs args).1 = .ok ⟨old, joinNl lines ++ ['\n']⟩ ∧
    (lines ≠ [] → (∀ l ∈ lines, l.getLast? ≠ some '\r') →
      rustLines (joinNl lines ++ ['\n']) = lines) := by
  constructor
  · rw [modify_file_of_spliced_ok fs args old lines hread hsp]
  · intro hne hcr
    exact rustLines_joinNl lines hne (not_mem_splicedLines old args lines hsp) hcr

/-- Witness for C3 (amended): replacing line 1 of a two-line file. -/
theorem modify_newcontents_split_witness :
    (Functions.modify_file ⟨[("t3w.txt", ("a\nb\n").toList)]⟩
      ⟨"t3w.txt", 1, some 1, ("c").toList, .replace⟩).1 =
      .ok ⟨("a\nb\n").toList, joinNl [("c").toList, ("b").toList] ++ ['\n']⟩ ∧
    rustLines (joinNl [("c").toList, ("b").toList] ++ ['\n']) =
      [("c").toList, ("b").toList] :=
  have h := modify_newcontents_split ⟨[("t3w.txt", ("a\nb\n").toList)]⟩
    ⟨"t3w.txt", 1, some 1, ("c").toList, .replace⟩ (("a\nb\n").toList)
    [("c").toList, ("b").toList] (by decide) (by decide)
  ⟨h.1, h.2 (by decide) (by decide)⟩

theorem splitNl_head_empty (rest : Str) (t : List Str)
    (hP : splitNl rest = [] :: t) (ht : t ≠ []) :
    ∃ r', rest = '\n' :: r' := by
  cases rest with
  | nil =>
    exfalso
    have h0 : splitNl ([] : Str) = [[]] := rfl
    rw [h0] at hP
    have : t = [] := (List.cons.inj hP).2.symm
    exact ht this
  | cons c r' =>
    by_cases hc : c = '\n'
    · exact ⟨r', by rw [hc]⟩
    · exfalso
      obtain ⟨h2, t2, hP2⟩ := splitNl_cons_head r'
      rw [splitNl_cons_of_ne c r' hc h2 t2 hP2] at hP
      exact List.noConfusion (List.cons.inj hP).1

theorem noTrailCR_of_not_hasCRLF (s : Str) (hs : hasCRLF s = false) :
    ∀ l ∈ (splitNl s).dropLast, l.getLast? ≠ some '\r' := by
  induction s with
  | nil => simp [splitNl]
  | cons c rest ih =>
    obtain ⟨h, t, hP⟩ := splitNl_cons_head rest
    have hs' : hasCRLF rest = false := by
      cases rest with
      | nil => rfl
      | cons d r' =>
        have : hasCRLF (c :: d :: r') =
            ((c = '\r' && d = '\n') || hasCRLF (d :: r')) := rfl
        rw [this] at hs
        exact (Bool.or_eq_false_iff.mp hs).2
    by_cases hc : c = '\n'
    · subst hc
      have h1 : splitNl ('\n' :: rest) = [] :: splitNl rest := by
        simp [splitNl]
      rw [h1, hP]
      show ∀ l ∈ [] :: (h :: t).dropLast, l.getLast? ≠ some '\r'
      intro l hl
      rcases List.mem_cons.mp hl with rfl | hl
      · simp
      · exact ih hs' l (by rw [hP]; exact hl)
    · rw [splitNl_cons_of_ne c rest hc h t hP]
      cases t with
      | nil => simp
      | cons u t' =>
        show ∀ l ∈ (c :: h) :: (u :: t').dropLast, l.getLast? ≠ some '\r'
        intro l hl
        have hmem_sub : ∀ z ∈ (u :: t').dropLast, z ∈ (splitNl rest).dropLast := by
          intro z hz
          rw [hP]
          exact List.mem_cons_of_mem _ hz
        rcases List.mem_cons.mp hl with rfl | hl
        · cases h with
          | nil =>
            intro hlast
            have hcr : c = '\r' := by simpa using hlast
            obtain ⟨r', rfl⟩ :=
              splitNl_head_empty rest (u :: t') hP (by simp)
            rw [hcr] at hs
            have : hasCRLF ('\r' :: '\n' :: r') = true := by
              show (('\r' = '\r' : Bool) && ('\n' = '\n' : Bool)
                || hasCRLF ('\n' :: r')) = true
              simp
            rw [this] at hs
            exact absurd hs (by simp)
          | cons a as =>
            rw [List.getLast?_cons_cons]
            have hmemh : (a :: as) ∈ (splitNl rest).dropLast := by
              rw [hP]
              exact List.mem_cons_self _ _
            exact ih hs' (a :: as) hmemh
        · exact ih hs' l (hmem_sub l hl)

theorem splitNl_getLast_ne_empty (s : Str) :
    s ≠ [] → s.getLast? ≠ some '\n' →
    ∀ last, (splitNl s).getLast? = some last → last ≠ [] := by
  induction s with
  | nil => intro hs; exact absurd rfl hs
  | cons c rest ih =>
    intro _ h last hlast
    cases rest with
    | nil =>
      have hc : ¬(c = '\n') := fun hh => h (by simp [hh])
      rw [splitNl_cons_of_ne c [] hc [] [] rfl] at hlast
      have : last = [c] := by simpa using hlast.symm
      simp [this]
    | cons d rest' =>
      have h' : (d :: rest').getLast? ≠ some '\n' := by
        rw [List.getLast?_cons_cons] at h
        exact h
      obtain ⟨hh, tt, hP⟩ := splitNl_cons_head (d :: rest')
      by_cases hc : c = '\n'
      · subst hc
        have h1 : splitNl ('\n' :: d :: rest') = [] :: splitNl (d :: rest') := by
          simp [splitNl]
        rw [h1, hP, List.getLast?_cons_cons] at hlast
        exact ih (by simp) h' last (by rw [hP]; exact hlast)
      · rw [splitNl_cons_of_ne c (d :: rest') hc hh tt hP] at hlast
        cases tt with
        | nil =>
          have : last = c :: hh := by simpa using hlast.symm
          simp [this]
        | cons u t' =>
          rw [List.getLast?_cons_cons] at hlast
          have heq : (splitNl (d :: rest')).getLast? = some last := by
            rw [hP, List.getLast?_cons_cons]
            exact hlast
          exact ih (by simp) h' last heq

theorem joinNl_rustLines (s : Str) (h1 : s.getLast? ≠ some '\n')
    (h2 : hasCRLF s = false) : joinNl (rustLines s) = s := by
  cases hn : s with
  | nil => rfl
  | cons c0 s0 =>
    rw [← hn]
    have hsne : s ≠ [] := by rw [hn]; simp
    have hne : splitNl s ≠ [] := splitNl_ne_nil s
    obtain ⟨last, hlast⟩ : ∃ last, (splitNl s).getLast? = some last := by
      cases hq : (splitNl s).getLast? with
      | none => exact absurd (List.getLast?_eq_none_iff.mp hq) hne
      | some v => exact ⟨v, rfl⟩
    have hlast_ne : last ≠ [] := splitNl_getLast_ne_empty s hsne h1 last hlast
    simp only [rustLines]
    rw [hlast]
    cases last with
    | nil => exact absurd rfl hlast_ne
    | cons a as =>
      rw [map_stripCR_id _ (noTrailCR_of_not_hasCRLF s h2)]
      have hgl : (splitNl s).getLast hne = a :: as := by
        have hq := List.getLast?_eq_getLast (splitNl s) hne
        rw [hlast] at hq
        exact (Option.some.inj hq).symm
      show joinNl ((splitNl s).dropLast ++ [a :: as]) = s
      rw [← hgl, List.dropLast_concat_getLast]
      exact joinNl_splitNl s

/-- C10 counterexample: on a file containing a carriage-return–line-feed pair
and not ending in a line feed, the empty Insert at line 1 succeeds but
rewrites the CRLF to a bare LF, so new_contents is not the old content plus
a single trailing line feed. -/
theorem modify_canonicalize_cex :
    (Functions.modify_file ⟨[("t10.txt", ("a\r\nb").toList)]⟩
      ⟨"t10.txt", 1, none, [], .insert⟩).1 =
      .ok ⟨("a\r\nb").toList, ("a\nb\n").toList⟩ ∧
    ("a\nb\n").toList ≠ ("a\r\nb").toList ++ ['\n'] := by decide

/-- C10 (amended): for every existing file whose content does not end in a
line feed and contains no carriage-return–line-feed pair, the empty Insert
at start_line = 1 succeeds, removes and inserts no lines, and yields
new_contents equal to the old content with a single line feed appended — so
new_contents differs from old_contents although the requested change set is
empty. -/
theorem modify_noop_insert_canonicalizes (fs : FS) (p : String) (old : Str)
    (hread : fs.readPath p = some old)
    (h1 : old.getLast? ≠ some '\n') (h2 : hasCRLF old = false) :
    (Functions.modify_file fs ⟨p, 1, none, [], .insert⟩).1 =
      .ok ⟨old, old ++ ['\n']⟩ ∧ old ++ ['\n'] ≠ old := by
  constructor
  · have hsp : splicedLines old ⟨p, 1, none, [], .insert⟩ =
        .ok (rustLines old) := by
      have h3 := splicedLines_insert_ok old [] p 1 (by omega) (by omega)
      simpa [show rustLines ([] : Str) = [] from rfl] using h3
    rw [modify_file_of_spliced_ok fs _ old _ hread hsp]
    simp [joinNl_rustLines old h1 h2]
  · intro hco
    have := congrArg List.length hco
    simp at this

/-- Witness for C10 (amended): a one-line file with no trailing line feed. -/
theorem modify_noop_insert_canonicalizes_witness :
    (Functions.modify_file ⟨[("t10w.txt", ("a").toList)]⟩
      ⟨"t10w.txt", 1, none, [], .insert⟩).1 =
      .ok ⟨("a").toList, ("a").toList ++ ['\n']⟩ ∧
    ("a").toList ++ ['\n'] ≠ ("a").toList :=
  modify_noop_insert_canonicalizes ⟨[("t10w.txt", ("a").toList)]⟩ "t10w.txt"
    (("a").toList) (by decide) (by decide) (by decide)

theorem diffChangesF_sound (f : Nat) :
    ∀ (old new : List Str) (i j : Nat), ∀ c ∈ diffChangesF f old new i j,
      (c.tag = .delete → ∃ k, c.old_index = some (i + k) ∧ old[k]? = some c.value) ∧
      (c.tag = .insert → ∃ k, c.new_index = some (j + k) ∧ new[k]? = some c.value) := by
  induction f with
  | zero => intro old new i j c hc; simp [diffChangesF] at hc
  | succ f ih =>
    intro old new i j c hc
    rcases old with _ | ⟨a, as⟩ <;> rcases new with _ | ⟨b, bs⟩
    · simp [diffChangesF] at hc
    ·
      simp only [diffChangesF] at hc
      rcases List.mem_cons.mp hc with rfl | hc
      · refine ⟨fun h => absurd h (by simp), fun _ => ⟨0, by simp, by simp⟩⟩
      · obtain ⟨hdel, hins⟩ := ih [] bs i (j + 1) c hc
        refine ⟨hdel, fun h => ?_⟩
        obtain ⟨k, h1, h2⟩ := hins h
        refine ⟨k + 1, ?_, by simpa using h2⟩
        rw [show j + (k + 1) = j + 1 + k by omega]
        exact h1
    ·
      simp only [diffChangesF] at hc
      rcases List.mem_cons.mp hc with rfl | hc
      · refine ⟨fun _ => ⟨0, by simp, by simp⟩, fun h => absurd h (by simp)⟩
      · obtain ⟨hdel, hins⟩ := ih as [] (i + 1) j c hc
        refine ⟨fun h => ?_, hins⟩
        obtain ⟨k, h1, h2⟩ := hdel h
        refine ⟨k + 1, ?_, by simpa using h2⟩
        rw [show i + (k + 1) = i + 1 + k by omega]
        exact h1
    ·
      by_cases hab : a = b
      · subst hab
        simp only [diffChangesF, if_pos rfl] at hc
        rcases List.mem_cons.mp hc with rfl | hc
        · exact ⟨fun h => absurd h (by simp), fun h => absurd h (by simp)⟩
        · obtain ⟨hdel, hins⟩ := ih as bs (i + 1) (j + 1) c hc
          refine ⟨fun h => ?_, fun h => ?_⟩
          · obtain ⟨k, h1, h2⟩ := hdel h
            refine ⟨k + 1, ?_, by simpa using h2⟩
            rw [show i + (k + 1) = i + 1 + k by omega]
            exact h1
          · obtain ⟨k, h1, h2⟩ := hins h
            refine ⟨k + 1, ?_, by simpa using h2⟩
            rw [show j + (k + 1) = j + 1 + k by omega]
            exact h1
      · by_cases hlt : lcsLen as (b :: bs) < lcsLen (a :: as) bs
        · simp only [diffChangesF, if_neg hab, if_pos hlt] at hc
          rcases List.mem_cons.mp hc with rfl | hc
          · refine ⟨fun h => absurd h (by simp), fun _ => ⟨0, by simp, by simp⟩⟩
          · obtain ⟨hdel, hins⟩ := ih (a :: as) bs i (j + 1) c hc
            refine ⟨hdel, fun h => ?_⟩
            obtain ⟨k, h1, h2⟩ := hins h
            refine ⟨k + 1, ?_, by simpa using h2⟩
            rw [show j + (k + 1) = j + 1 + k by omega]
            exact h1
        · simp only [diffChangesF, if_neg hab, if_neg hlt] at hc
          rcases List.mem_cons.mp hc with rfl | hc
          · refine ⟨fun _ => ⟨0, by simp, by simp⟩, fun h => absurd h (by simp)⟩
          · obtain ⟨hdel, hins⟩ := ih as (b :: bs) (i + 1) j c hc
            refine ⟨fun h => ?_, hins⟩
            obtain ⟨k, h1, h2⟩ := hdel h
            refine ⟨k + 1, ?_, by simpa using h2⟩
            rw [show i + (k + 1) = i + 1 + k by omega]
            exact h1

theorem diffChanges_sound (old new : List Str) (i j : Nat) :
    ∀ c ∈ diffChanges old new i j,
      (c.tag = .delete → ∃ k, c.old_index = some (i + k) ∧ old[k]? = some c.value) ∧
      (c.tag = .insert → ∃ k, c.new_index = some (j + k) ∧ new[k]? = some c.value) :=
  diffChangesF_sound (old.length + new.length) old new i j

/-- C7: every entry of the change report printed for a ModifyFile result
comes from a change of the LCS line diff whose tag is not Equal, and a
deletion entry is numbered by its 1-based position in the OLD line sequence
while every other (insertion) entry is numbered by its 1-based position in
the NEW line sequence, independently; the printed content is that line with
trailing whitespace trimmed. -/
theorem modifyFileReport_sound (old_contents new_contents : Str) :
    ∀ e ∈ modifyFileReport old_contents new_contents,
      ∃ c ∈ diffChanges (rustLines old_contents) (rustLines new_contents) 0 0,
        c.tag ≠ ChangeTag.equal ∧ e.content = rustTrimEnd c.value ∧
        1 ≤ e.line_number ∧
        (e.is_deletion = true → c.tag = ChangeTag.delete ∧
          (rustLines old_contents)[e.line_number - 1]? = some c.value) ∧
        (e.is_deletion = false → c.tag = ChangeTag.insert ∧
          (rustLines new_contents)[e.line_number - 1]? = some c.value) := by
  intro e he
  simp only [modifyFileReport, List.mem_map] at he
  obtain ⟨c, hcf, rfl⟩ := he
  have hmem := List.mem_of_mem_filter hcf
  have htag : c.tag ≠ ChangeTag.equal := by
    have h0 := List.of_mem_filter hcf
    simpa using h0
  obtain ⟨hdel, hins⟩ := diffChanges_sound _ _ 0 0 c hmem
  refine ⟨c, hmem, htag, rfl, ?_, ?_, ?_⟩
  · exact Nat.succ_le_succ (Nat.zero_le _)
  · intro hisdel
    cases htagc : c.tag with
    | equal => exact absurd htagc htag
    | insert => simp [htagc] at hisdel
    | delete =>
      obtain ⟨k, hoi, hv⟩ := hdel htagc
      refine ⟨rfl, ?_⟩
      simp [htagc, hoi]
      simpa using hv
  · intro hisdel
    cases htagc : c.tag with
    | equal => exact absurd htagc htag
    | delete => simp [htagc] at hisdel
    | insert =>
      obtain ⟨k, hni, hv⟩ := hins htagc
      refine ⟨rfl, ?_⟩
      simp [htagc, hni]
      simpa using hv

/-- Witness for C7: the report for replacing the line "a" by "b" contains a
deletion entry numbered from the old sequence. -/
theorem modifyFileReport_sound_witness :
    ∃ c ∈ diffChanges (rustLines (("a\n").toList))
        (rustLines (("b\n").toList)) 0 0,
      c.tag ≠ ChangeTag.equal ∧
      (⟨1, ("a").toList, true⟩ : PrintedLine).content = rustTrimEnd c.value ∧
      1 ≤ (⟨1, ("a").toList, true⟩ : PrintedLine).line_number ∧
      ((⟨1, ("a").toList, true⟩ : PrintedLine).is_deletion = true →
        c.tag = ChangeTag.delete ∧
        (rustLines (("a\n").toList))[
          (⟨1, ("a").toList, true⟩ : PrintedLine).line_number - 1]? =
          some c.value) ∧
      ((⟨1, ("a").toList, true⟩ : PrintedLine).is_deletion = false →
        c.tag = ChangeTag.insert ∧
        (rustLines (("b\n").toList))[
          (⟨1, ("a").toList, true⟩ : PrintedLine).line_number - 1]? =
          some c.value) :=
  modifyFileReport_sound (("a\n").toList) (("b\n").toList)
    ⟨1, ("a").toList, true⟩ (by decide)

theorem dispatchStep_not_terminated (reported : List String) (fs : FS)
    (call : FunctionCall) (hnp : ∀ s, call ≠ .printMessage s) :
    dispatchStep reported fs call ≠ .terminated := by
  cases call with
  | getAllFiles =>
    simp only [dispatchStep]
    rcases Functions.get_all_files fs reported with v | m | m <;> simp
  | readFile args =>
    simp only [dispatchStep]
    rcases Functions.read_file_opt fs args with v | m | m <;> simp
  | writeFile args =>
    simp only [dispatchStep]
    rcases hw : Functions.write_file fs args with ⟨v | m | m, fs'⟩ <;> simp
  | deleteFile args =>
    simp only [dispatchStep]
    rcases hw : Functions.delete_file fs args.path with ⟨v | m | m, fs'⟩ <;> simp
  | modifyFile args =>
    simp only [dispatchStep]
    rcases hw : Functions.modify_file fs args with ⟨v | m | m, fs'⟩ <;> simp
  | moveFile args =>
    simp only [dispatchStep]
    rcases hw : Functions.move_file fs args with ⟨v | m | m, fs'⟩ <;> simp
  | printMessage s => exact absurd rfl (hnp s)

/-- C8 counterexample: a decoded ModifyFile with start_line = 0 on an
existing file panics inside the dispatcher: the loop aborts with no Result
produced and does not continue to await the next message — so not every
non-PrintMessage operation yields exactly one Result. -/
theorem dispatch_modify_panic_cex :
    dispatchStep [] ⟨[("f.txt", ("a\n").toList)]⟩
      (.modifyFile ⟨"f.txt", 0, some 1, [], .replace⟩) =
      .panicked "attempt to subtract with overflow" ∧
    runLoop [] ⟨[("f.txt", ("a\n").toList)]⟩
      [some (.modifyFile ⟨"f.txt", 0, some 1, [], .replace⟩),
       some .getAllFiles] =
      ([], .panicked "attempt to subtract with overflow") := by decide

/-- C8 (amended): when the decoded operation is PrintMessage, the loop shows
the message and terminates immediately — no reply is sent for it nor for
anything after it; every other successfully decoded operation either yields
exactly one Result, which is sent before the loop continues with the rest of
the inbound script, or panics (a ModifyFile whose splice aborts), in which
case the loop aborts having produced no Result. -/
theorem dispatch_loop_shape (reported : List String) (fs : FS)
    (m : String) (call : FunctionCall) (rest : List (Option FunctionCall))
    (hnp : ∀ s, call ≠ .printMessage s) :
    runLoop reported fs (some (.printMessage m) :: rest) =
      ([], .terminatedByPrint) ∧
    ((∃ r fs', dispatchStep reported fs call = .reply r fs' ∧
        runLoop reported fs (some call :: rest) =
          (r :: (runLoop reported fs' rest).1, (runLoop reported fs' rest).2)) ∨
     (∃ q, dispatchStep reported fs call = .panicked q ∧
        runLoop reported fs (some call :: rest) = ([], .panicked q))) := by
  constructor
  · simp [runLoop, dispatchStep]
  · cases hd : dispatchStep reported fs call with
    | terminated =>
      exact absurd hd (dispatchStep_not_terminated reported fs call hnp)
    | panicked q =>
      exact Or.inr ⟨q, rfl, by simp [runLoop, hd]⟩
    | reply r fs' =>
      exact Or.inl ⟨r, fs', rfl, by simp [runLoop, hd]⟩

/-- Witness for C8 (amended) with a GetAllFiles call on an empty tree. -/
theorem dispatch_loop_shape_witness :
    runLoop [] ⟨[]⟩ [some (.printMessage "hi")] = ([], .terminatedByPrint) ∧
    ((∃ r fs', dispatchStep [] ⟨[]⟩ .getAllFiles = .reply r fs' ∧
        runLoop [] ⟨[]⟩ [some .getAllFiles] =
          (r :: (runLoop [] fs' []).1, (runLoop [] fs' []).2)) ∨
     (∃ q, dispatchStep [] ⟨[]⟩ .getAllFiles = .panicked q ∧
        runLoop [] ⟨[]⟩ [some .getAllFiles] = ([], .panicked q))) :=
  dispatch_loop_shape [] ⟨[]⟩ "hi" .getAllFiles []
    (fun s => by simp)
